import Mathlib

/-!
Verification development for the integreat-cms repository.

The definitions below are shallow embeddings of the Python source:

* `upload_path`, `upload_path_thumbnail`, `MediaFile` and its methods
  embed `src/cms/models/media/media_file.py`.  Django `FileField` values
  are modelled by their stored name (the empty string is the falsy
  "no file" state, matching Python truthiness of `FieldFile`).
  The database table behind `MediaFile.objects.get(id=...)` is modelled
  as a lookup function `Nat -> MediaFile`, and the current time used by
  `strftime` as an explicit `UploadDate` argument.
* `splitext` embeds the CPython `posixpath.splitext` helper used by
  `upload_path_thumbnail`.
* `AbstractBasePage` embeds `cms/models/pages/abstract_base_page.py`.
* `Site.STATUS` embeds `backend/cms/models/site.py`.
* `add_roles` / `remove_roles` embed the data migration
  `cms/migrations/0005_grant_imprint_deletion_permission.py`; the
  many-to-many permission set of the MANAGEMENT group is modelled as a
  duplicate-free list with Django add/remove semantics.
* The language-tree form validation is modelled from the spec (the form
  code is not part of the sources), see `submissionValid`.
-/

namespace IntegreatCMS

/-- Date at which a media file is saved; `strftime` of the source reads
the wall clock, here it is an explicit argument. -/
structure UploadDate where
  year : Nat
  month : Nat
deriving Repr, DecidableEq

/-- Zero-padded two-digit month, as produced by the `%m` directive of
`strftime`. -/
def pad2 (n : Nat) : String :=
  if n < 10 then "0" ++ toString n else toString n

/-- Embeds the expression `strftime('%Y/%m')` of the source. -/
def strftimeYm (d : UploadDate) : String :=
  toString d.year ++ "/" ++ pad2 d.month

/-- Embeds the `MediaFile` Django model of
`src/cms/models/media/media_file.py`.  File fields are modelled by their
stored names; foreign keys by the ids of the referenced rows. -/
structure MediaFile where
  id : Option Nat
  file : String
  thumbnail : String
  type : String
  name : String
  alt_text : String
  region : Option Nat
  parent_directory : Option Nat
  uploaded_date : Nat
deriving Repr, DecidableEq

/-- Python truthiness of a primary-key value (`if instance.id:`). -/
def idTruthy : Option Nat → Bool
  | none => false
  | some n => n != 0

/-- Embeds the module-level function `upload_path(instance, filename)`.
`db` models `MediaFile.objects.get(id=...)`; `now` the current date. -/
def upload_path (db : Nat → MediaFile) (now : UploadDate)
    (inst : MediaFile) (filename : String) : String :=
  let region_directory :=
    match inst.region with
    | some r => "sites/" ++ toString r ++ "/"
    | none => ""
  let fallback := region_directory ++ strftimeYm now ++ "/" ++ filename
  match inst.id with
  | some i =>
    if i != 0 then
      let original := db i
      if original.file != "" then original.file else fallback
    else fallback
  | none => fallback

/-- Embeds CPython `posixpath.splitext`: the extension starts at the last
dot of the basename, unless that dot belongs to the leading run of dots
of the basename. -/
def splitext (p : String) : String × String :=
  let cs := p.data
  let baseRev := cs.reverse.takeWhile (fun c => c ≠ '/')
  let rest := baseRev.reverse.dropWhile (fun c => c = '.')
  let extRev := rest.reverse.takeWhile (fun c => c ≠ '.')
  if extRev.length = rest.length then (p, "")
  else (String.mk (cs.take (cs.length - (extRev.length + 1))),
        String.mk (cs.drop (cs.length - (extRev.length + 1))))

/-- Embeds the module-level function `upload_path_thumbnail(instance,
filename)`; the `filename` argument is present but unused in the source
(`pylint: disable=unused-argument`). -/
def upload_path_thumbnail (db : Nat → MediaFile)
    (inst : MediaFile) (filename : String) : String :=
  let derive :=
    let pair := splitext inst.file
    pair.1 ++ "_thumbnail" ++ pair.2
  match inst.id with
  | some i =>
    if i != 0 then
      let original := db i
      if original.thumbnail != "" then original.thumbnail else derive
    else derive
  | none => derive

/-- Django settings used by the model methods. -/
structure Settings where
  BASE_URL : String
  MEDIA_URL : String
deriving Repr, DecidableEq

/-- Embeds `FieldFile.url` of the default storage: media url followed by
the stored name. -/
def fieldFileUrl (s : Settings) (name : String) : String :=
  s.MEDIA_URL ++ name

/-- Embeds the `url` property of `MediaFile`: base url plus file url when
a file is set, `None` otherwise. -/
def MediaFile.url (s : Settings) (m : MediaFile) : Option String :=
  if m.file != "" then some (s.BASE_URL ++ fieldFileUrl s m.file) else none

/-- Embeds the Python string method `startswith` as a structural prefix
test on the character lists. -/
def startswith (s pre : String) : Bool :=
  pre.data.isPrefixOf s.data

/-- Embeds the `thumbnail_url` property of `MediaFile`. -/
def MediaFile.thumbnail_url (s : Settings) (m : MediaFile) : Option String :=
  if m.thumbnail = "" then
    if startswith m.type "image" then m.url s
    else none
  else some (s.BASE_URL ++ fieldFileUrl s m.thumbnail)

/-- Record returned by `MediaFile.serialize`. -/
structure SerializedMediaFile where
  id : Option Nat
  name : String
  altText : String
  type : String
  typeDisplay : String
  thumbnailUrl : Option String
  url : Option String
  uploadedDate : String
  isGlobal : Bool
deriving Repr, DecidableEq

/-- Embeds `MediaFile.serialize`.  `typeDisplay` models Django
`get_type_display`, `localizeDate` the `localize(timezone.localtime(...))`
composition, and `mtime` the outcome of `getmtime(self.file.path)`:
`Except.error ()` is the `OSError` caught by the method. -/
def MediaFile.serialize (s : Settings) (typeDisplay : String → String)
    (localizeDate : Nat → String) (mtime : Except Unit Nat)
    (m : MediaFile) : SerializedMediaFile :=
  let tu := m.thumbnail_url s
  let tu2 :=
    match tu with
    | none => none
    | some u =>
      if u = "" then some u
      else
        match mtime with
        | Except.ok t => some (u ++ "?" ++ toString t)
        | Except.error _ => some u
  { id := m.id
    name := m.name
    altText := m.alt_text
    type := m.type
    typeDisplay := typeDisplay m.type
    thumbnailUrl := tu2
    url := m.url s
    uploadedDate := localizeDate m.uploaded_date
    isGlobal := m.region.isNone }

/-- Embeds the abstract model
`cms/models/pages/abstract_base_page.py`: only the field relevant to the
`archived` property is carried. -/
structure AbstractBasePage where
  explicitly_archived : Bool
deriving Repr, DecidableEq

/-- Embeds the `archived` property of `AbstractBasePage`, an alias of
`explicitly_archived` at this level of the hierarchy. -/
def AbstractBasePage.archived (p : AbstractBasePage) : Bool :=
  p.explicitly_archived

namespace Site

/-- Status constant `Site.ACTIVE` of `backend/cms/models/site.py`. -/
def ACTIVE : String := "acti"

/-- Status constant `Site.HIDDEN` of `backend/cms/models/site.py`. -/
def HIDDEN : String := "hidd"

/-- Status constant `Site.ARCHIVED` of `backend/cms/models/site.py`. -/
def ARCHIVED : String := "arch"

/-- Embeds the `Site.STATUS` choices tuple. -/
def STATUS : List (String × String) :=
  [(ACTIVE, "Active"), (HIDDEN, "Hidden"), (ARCHIVED, "Archived")]

/-- Django choice validation for the `status` field: a submitted value is
admissible exactly when it occurs among the choice keys. -/
def statusChoiceValid (s : String) : Bool :=
  (STATUS.map Prod.fst).contains s

end Site

/-- State touched by migration 0005: the permission set of the
MANAGEMENT group, modelled as a duplicate-free list of permission
codenames. -/
structure AuthState where
  management_permissions : List String
deriving Repr, DecidableEq

/-- Django many-to-many `add`: inserting an already present element is a
no-op. -/
def permsAdd (l : List String) (p : String) : List String :=
  if p ∈ l then l else l ++ [p]

/-- Django many-to-many `remove`: drops every occurrence of the element. -/
def permsRemove (l : List String) (p : String) : List String :=
  l.filter (fun q => q ≠ p)

/-- Embeds the forward operation `add_roles` of migration
`0005_grant_imprint_deletion_permission.py`. -/
def add_roles (st : AuthState) : AuthState :=
  { st with management_permissions :=
      permsAdd st.management_permissions "delete_imprintpage" }

/-- Embeds the reverse operation `remove_roles` of migration
`0005_grant_imprint_deletion_permission.py`. -/
def remove_roles (st : AuthState) : AuthState :=
  { st with management_permissions :=
      permsRemove st.management_permissions "delete_imprintpage" }

/-- Language-tree node: belongs to exactly one region and optionally has
a parent node (the `active` flag plays no role in the tree-shape
invariant). -/
structure LanguageTreeNode where
  id : Nat
  region : Nat
  parent : Option Nat
deriving Repr, DecidableEq

/-- Modelled from the spec: the `LanguageTreeNodeForm` validation is not
part of the sources, only its callers in the test suite are.  A
submission creating a node is accepted when the id is fresh and either
the node is the first node of its region (it becomes the root) or its
parent is an existing node of the same region. -/
def submissionValid (st : List LanguageTreeNode) (n : LanguageTreeNode) : Bool :=
  st.all (fun m => m.id ≠ n.id) &&
  match n.parent with
  | none => st.all (fun m => m.region ≠ n.region)
  | some p => st.any (fun m => m.id = p && m.region = n.region)

/-- Modelled from the spec: states reachable from the empty database by
a sequence of valid form submissions, each submission persisting one new
language-tree node. -/
inductive FormReachable : List LanguageTreeNode → Prop where
  | nil : FormReachable []
  | step {st : List LanguageTreeNode} {n : LanguageTreeNode} :
      FormReachable st → submissionValid st n = true →
      FormReachable (n :: st)

/-- Parent id of the node with the given id, if any. -/
def parentOf : List LanguageTreeNode → Nat → Option Nat
  | [], _ => none
  | m :: rest, i => if m.id = i then m.parent else parentOf rest i

/-- One step along the parent chain. -/
def chainStep (st : List LanguageTreeNode) : Option Nat → Option Nat
  | none => none
  | some i => parentOf st i

/-- Iterated parent chain. -/
def chain (st : List LanguageTreeNode) (o : Option Nat) : Nat → Option Nat
  | 0 => o
  | k + 1 => chain st (chainStep st o) k

/-- The tree is acyclic when every parent chain dies out within as many
steps as there are nodes. -/
def acyclicB (st : List LanguageTreeNode) : Bool :=
  st.all (fun n => (chain st (some n.id) st.length).isNone)

/-- Number of parentless nodes of the given region. -/
def rootsInRegion (st : List LanguageTreeNode) (r : Nat) : Nat :=
  st.countP (fun n => n.region == r && n.parent.isNone)

/-- Every region that has a node has exactly one root. -/
def singleRootedB (st : List LanguageTreeNode) : Bool :=
  st.all (fun n => rootsInRegion st n.region == 1)

/-- Auxiliary invariant: every node points (as parent) to a node of the
same region that was persisted strictly earlier. -/
def parentEarlier : List LanguageTreeNode → Prop
  | [] => True
  | n :: rest =>
      (∀ p, n.parent = some p → ∃ m ∈ rest, m.id = p ∧ m.region = n.region) ∧
      parentEarlier rest

/-- Auxiliary invariant: node ids are pairwise distinct. -/
def freshIds (st : List LanguageTreeNode) : Prop :=
  st.Pairwise (fun a b => a.id ≠ b.id)

/-- Auxiliary invariant, propositional form of `singleRootedB`. -/
def singleRootedP (st : List LanguageTreeNode) : Prop :=
  ∀ n ∈ st, rootsInRegion st n.region = 1

/-- Database lookup returning a fixed stored media file (id 7). -/
def dbStored : Nat → MediaFile :=
  fun _ => ⟨some 7, "sites/5/2023/11/old.png", "sites/5/2023/11/old_thumbnail.png",
    "image/png", "old", "", some 5, none, 0⟩

/-- Concrete upload date used by the sample instances. -/
def demoDate : UploadDate := ⟨2024, 3⟩

/-- Unpersisted media file scoped to region 5, before the file is stored. -/
def demoRegionFile : MediaFile :=
  ⟨none, "", "", "image/png", "photo", "", some 5, none, 0⟩

/-- Unpersisted global media file (no region). -/
def demoGlobalFile : MediaFile :=
  ⟨none, "", "", "image/png", "photo", "", none, none, 0⟩

/-- Persisted media file (id 7) about to be re-saved. -/
def demoPersistedFile : MediaFile :=
  ⟨some 7, "sites/5/2023/11/old.png", "", "image/png", "old", "", some 5, none, 0⟩

/-- Unpersisted region file right after its file name was assigned by
`upload_path`. -/
def demoSavedFile : MediaFile :=
  ⟨none, "sites/5/2024/03/photo.png", "", "image/png", "photo", "", some 5, none, 0⟩

/-- Concrete Django settings. -/
def demoSettings : Settings := ⟨"https://cms.example.com", "/media/"⟩

/-- Image file without a thumbnail. -/
def demoImageNoThumb : MediaFile :=
  ⟨some 1, "sites/5/2024/03/photo.png", "", "image/png", "photo", "", some 5, none, 0⟩

/-- Non-image file without a thumbnail. -/
def demoPdfNoThumb : MediaFile :=
  ⟨some 2, "sites/5/2024/03/doc.pdf", "", "application/pdf", "doc", "", some 5, none, 0⟩

/-- File with a stored thumbnail. -/
def demoWithThumb : MediaFile :=
  ⟨some 3, "sites/5/2024/03/photo.png", "sites/5/2024/03/photo_thumbnail.png",
    "image/png", "photo", "", some 5, none, 0⟩

/-- Concrete MANAGEMENT permission set lacking the imprint deletion
permission. -/
def demoAuth : AuthState := ⟨["change_page", "view_mediafile"]⟩

/-- Concrete language tree reachable by two valid form submissions:
first the root of region 1, then one child node. -/
def demoTree : List LanguageTreeNode := [⟨2, 1, some 1⟩, ⟨1, 1, none⟩]

end IntegreatCMS

namespace IntegreatCMS

/-- C4: at the `AbstractBasePage` level the `archived` property equals
the `explicitly_archived` flag; the implicit inheritance from ancestors
is only introduced by subclasses. -/
theorem abstract_base_page_archived_eq_explicit (p : AbstractBasePage) :
    p.archived = p.explicitly_archived := rfl

/-- C5: the `isGlobal` field of the record returned by
`MediaFile.serialize` is true exactly when the region of the file is
null. -/
theorem serialize_isGlobal_iff_region_none (s : Settings)
    (td : String → String) (loc : Nat → String) (mt : Except Unit Nat)
    (m : MediaFile) :
    (m.serialize s td loc mt).isGlobal = true ↔ m.region = none := by
  simp [MediaFile.serialize, Option.isNone_iff_eq_none]

/-- C6: a status value passes the choice validation of the `Site.status`
field exactly when it is one of the three enum members `ACTIVE`,
`HIDDEN`, `ARCHIVED`. -/
theorem site_status_choices (s : String) :
    Site.statusChoiceValid s = true ↔
      (s = Site.ACTIVE ∨ s = Site.HIDDEN ∨ s = Site.ARCHIVED) := by
  simp [Site.statusChoiceValid, Site.STATUS]

/-- C8: on a file without thumbnail, `thumbnail_url` returns the `url`
property for image types and `None` (an `Option`, no exception) for
other types; with a thumbnail it returns the base url concatenated with
the thumbnail url. -/
theorem thumbnail_url_cases (s : Settings) (m : MediaFile) :
    (m.thumbnail = "" →
      (startswith m.type "image" = true → m.thumbnail_url s = m.url s) ∧
      (startswith m.type "image" = false → m.thumbnail_url s = none)) ∧
    (m.thumbnail ≠ "" →
      m.thumbnail_url s = some (s.BASE_URL ++ fieldFileUrl s m.thumbnail)) := by
  constructor
  · intro h
    constructor <;> intro h2 <;> simp [MediaFile.thumbnail_url, h, h2]
  · intro h
    simp [MediaFile.thumbnail_url, h]

/-- Witness for C8 at three concrete files, one per case. -/
theorem thumbnail_url_cases_check :
    MediaFile.thumbnail_url demoSettings demoImageNoThumb
        = MediaFile.url demoSettings demoImageNoThumb ∧
    MediaFile.thumbnail_url demoSettings demoPdfNoThumb = none ∧
    MediaFile.thumbnail_url demoSettings demoWithThumb
        = some (demoSettings.BASE_URL
            ++ fieldFileUrl demoSettings demoWithThumb.thumbnail) :=
  ⟨((thumbnail_url_cases demoSettings demoImageNoThumb).1 rfl).1 (by decide),
   ((thumbnail_url_cases demoSettings demoPdfNoThumb).1 rfl).2 (by decide),
   (thumbnail_url_cases demoSettings demoWithThumb).2 (by decide)⟩

/-- C10: when reading the modification time fails with `OSError`,
`serialize` still returns a complete record whose `thumbnailUrl` is the
plain `thumbnail_url` without the cache-busting suffix, and every other
field agrees with the record produced when the read succeeds. -/
theorem serialize_oserror_resilient (s : Settings) (td : String → String)
    (loc : Nat → String) (m : MediaFile) (t : Nat) :
    (m.serialize s td loc (Except.error ())).thumbnailUrl
        = m.thumbnail_url s ∧
    (m.serialize s td loc (Except.error ())).id
        = (m.serialize s td loc (Except.ok t)).id ∧
    (m.serialize s td loc (Except.error ())).name
        = (m.serialize s td loc (Except.ok t)).name ∧
    (m.serialize s td loc (Except.error ())).altText
        = (m.serialize s td loc (Except.ok t)).altText ∧
    (m.serialize s td loc (Except.error ())).type
        = (m.serialize s td loc (Except.ok t)).type ∧
    (m.serialize s td loc (Except.error ())).typeDisplay
        = (m.serialize s td loc (Except.ok t)).typeDisplay ∧
    (m.serialize s td loc (Except.error ())).url
        = (m.serialize s td loc (Except.ok t)).url ∧
    (m.serialize s td loc (Except.error ())).uploadedDate
        = (m.serialize s td loc (Except.ok t)).uploadedDate ∧
    (m.serialize s td loc (Except.error ())).isGlobal
        = (m.serialize s td loc (Except.ok t)).isGlobal := by
  refine ⟨?_, rfl, rfl, rfl, rfl, rfl, rfl, rfl, rfl⟩
  simp only [MediaFile.serialize]
  cases h : m.thumbnail_url s with
  | none => rfl
  | some u =>
    by_cases hu : u = "" <;> simp [hu]

/-- C1: re-saving a persisted media file whose stored record has a
non-empty file keeps the original upload path, whatever the new
filename is. -/
theorem upload_path_stable_once_persisted (db : Nat → MediaFile)
    (now : UploadDate) (inst : MediaFile) (i : Nat)
    (hid : inst.id = some i) (hi : i ≠ 0) (hfile : (db i).file ≠ "")
    (filename : String) :
    upload_path db now inst filename = (db i).file := by
  simp [upload_path, hid, hi, hfile]

/-- Witness for C1: the persisted file with id 7 keeps its stored path. -/
theorem upload_path_stable_once_persisted_check :
    upload_path dbStored demoDate demoPersistedFile "new.png"
      = (dbStored 7).file :=
  upload_path_stable_once_persisted dbStored demoDate demoPersistedFile 7
    rfl (by decide) (by decide) "new.png"

/-- C3: for an unpersisted media file the upload path is the region
subdirectory (when a region is set), the formatted year and month, and
the filename; without a region the site prefix is omitted. -/
theorem upload_path_unpersisted (db : Nat → MediaFile) (now : UploadDate)
    (inst : MediaFile) (filename : String) (hid : inst.id = none) :
    (∀ r, inst.region = some r →
      upload_path db now inst filename =
        "sites/" ++ toString r ++ "/" ++ strftimeYm now ++ "/" ++ filename) ∧
    (inst.region = none →
      upload_path db now inst filename
        = strftimeYm now ++ "/" ++ filename) := by
  constructor
  · intro r hr
    simp [upload_path, hid, hr]
  · intro hr
    simp [upload_path, hid, hr]

/-- Witness for C3: both the regional and the global case at a concrete
date and filename. -/
theorem upload_path_unpersisted_check :
    upload_path dbStored demoDate demoRegionFile "photo.png"
      = "sites/" ++ toString 5 ++ "/" ++ strftimeYm demoDate ++ "/"
        ++ "photo.png" ∧
    upload_path dbStored demoDate demoGlobalFile "photo.png"
      = strftimeYm demoDate ++ "/" ++ "photo.png" :=
  ⟨(upload_path_unpersisted dbStored demoDate demoRegionFile "photo.png"
      rfl).1 5 rfl,
   (upload_path_unpersisted dbStored demoDate demoGlobalFile "photo.png"
      rfl).2 rfl⟩

/-- C9: running the reverse migration operation after the forward one
restores the MANAGEMENT permission set, provided the group did not
already hold the imprint deletion permission. -/
theorem migration0005_reverse_inverts_forward (st : AuthState)
    (h : "delete_imprintpage" ∉ st.management_permissions) :
    remove_roles (add_roles st) = st := by
  cases st with
  | mk perms =>
    simp only [add_roles, remove_roles, permsAdd, permsRemove] at *
    rw [if_neg h]
    congr 1
    rw [List.filter_append]
    have h1 : perms.filter (fun q => q ≠ "delete_imprintpage") = perms := by
      rw [List.filter_eq_self]
      intro a ha
      simp only [ne_eq, decide_eq_true_eq]
      intro he
      exact h (he ▸ ha)
    have h2 : ["delete_imprintpage"].filter
        (fun q => q ≠ "delete_imprintpage") = [] := by decide
    rw [h1, h2, List.append_nil]

/-- Witness for C9 at a concrete permission set. -/
theorem migration0005_reverse_inverts_forward_check :
    remove_roles (add_roles demoAuth) = demoAuth :=
  migration0005_reverse_inverts_forward demoAuth (by decide)

end IntegreatCMS

namespace IntegreatCMS

/-- Behaviour of `splitext` on a path made of a directory part, a
basename without dots or slashes, and a dot-separated extension: the
split happens at that last dot. -/
theorem splitextData (A1 B1 E1 : List Char)
    (hB : B1 ≠ [])
    (hBc : ∀ c ∈ B1, c ≠ '.' ∧ c ≠ '/')
    (hEc : ∀ c ∈ E1, c ≠ '.' ∧ c ≠ '/') :
    splitext (String.mk (A1 ++ '/' :: (B1 ++ '.' :: E1)))
      = (String.mk (A1 ++ '/' :: B1), String.mk ('.' :: E1)) := by
  obtain ⟨b, B2, rfl⟩ := List.exists_cons_of_ne_nil hB
  simp only [splitext]
  have hrev : (A1 ++ '/' :: (b :: B2 ++ '.' :: E1)).reverse
      = E1.reverse ++ '.' :: (B2.reverse ++ b :: ('/' :: A1.reverse)) := by
    simp
  rw [hrev]
  have h1 : (E1.reverse ++ '.' :: (B2.reverse ++ b :: '/' :: A1.reverse)).takeWhile
      (fun c => c ≠ '/')
      = E1.reverse ++ '.' :: (B2.reverse ++ [b]) := by
    rw [List.takeWhile_append_of_pos (by
      intro a ha
      simp only [List.mem_reverse] at ha
      simp [(hEc a ha).2])]
    rw [List.takeWhile_cons_of_pos (by decide)]
    rw [List.takeWhile_append_of_pos (by
      intro a ha
      simp only [List.mem_reverse] at ha
      simp [(hBc a (List.mem_cons_of_mem b ha)).2])]
    rw [List.takeWhile_cons_of_pos (by simp [(hBc b (List.mem_cons_self b B2)).2])]
    rw [List.takeWhile_cons_of_neg (by simp)]
  rw [h1]
  have h2 : (E1.reverse ++ '.' :: (B2.reverse ++ [b])).reverse
      = b :: B2 ++ '.' :: E1 := by
    simp
  rw [h2]
  have h3 : (b :: B2 ++ '.' :: E1).dropWhile (fun c => c = '.')
      = b :: B2 ++ '.' :: E1 := by
    rw [List.cons_append]
    rw [List.dropWhile_cons_of_neg (by simp [(hBc b (List.mem_cons_self b B2)).1])]
  rw [h3]
  have h4 : (b :: B2 ++ '.' :: E1).reverse
      = E1.reverse ++ '.' :: (B2.reverse ++ [b]) := by
    simp
  rw [h4]
  have h5 : (E1.reverse ++ '.' :: (B2.reverse ++ [b])).takeWhile
      (fun c => c ≠ '.')
      = E1.reverse := by
    rw [List.takeWhile_append_of_pos (by
      intro a ha
      simp only [List.mem_reverse] at ha
      simp [(hEc a ha).1])]
    rw [List.takeWhile_cons_of_neg (by simp)]
    simp
  rw [h5]
  rw [if_neg (by simp; omega)]
  have hassoc : A1 ++ '/' :: (b :: B2 ++ '.' :: E1)
      = (A1 ++ '/' :: b :: B2) ++ '.' :: E1 := by simp
  rw [hassoc]
  have hlen : (A1 ++ '/' :: b :: B2).length
      = ((A1 ++ '/' :: b :: B2) ++ '.' :: E1).length
        - (E1.reverse.length + 1) := by
    simp
    omega
  rw [List.take_left' hlen, List.drop_left' hlen]

/-- C2: the filename argument of `upload_path_thumbnail` never
influences the result, and for an unpersisted instance whose file name
was assigned by `upload_path` (the save-time flow) the thumbnail path
carries the same region id and upload date, with `_thumbnail` inserted
before the extension. -/
theorem upload_path_thumbnail_derived (db : Nat → MediaFile) (now : UploadDate)
    (inst : MediaFile) (r : Nat) (B E fn : String)
    (hid : inst.id = none) (hreg : inst.region = some r)
    (hB : B.data ≠ [])
    (hBc : ∀ c ∈ B.data, c ≠ '.' ∧ c ≠ '/')
    (hEc : ∀ c ∈ E.data, c ≠ '.' ∧ c ≠ '/')
    (hfile : inst.file = upload_path db now inst (B ++ "." ++ E)) :
    (∀ inst2 f1 f2, upload_path_thumbnail db inst2 f1
        = upload_path_thumbnail db inst2 f2) ∧
    upload_path_thumbnail db inst fn
      = ("sites/" ++ toString r ++ "/" ++ strftimeYm now ++ "/" ++ B)
        ++ "_thumbnail" ++ ("." ++ E) := by
  have hs : ("/" : String).data = ['/'] := rfl
  have hd : ("." : String).data = ['.'] := rfl
  constructor
  · intro inst2 f1 f2
    rfl
  · have hA : inst.file = String.mk
        (("sites/" ++ toString r ++ "/" ++ strftimeYm now).data
          ++ '/' :: (B.data ++ '.' :: E.data)) := by
      apply String.ext
      rw [hfile]
      simp [upload_path, hid, hreg, hs, hd]
    simp only [upload_path_thumbnail, hid]
    rw [hA, splitextData _ _ _ hB hBc hEc]
    apply String.ext
    simp [hs, hd]

/-- Witness for C2: the saved region file derives its thumbnail path
from region 5 and March 2024, for an arbitrary ignored filename. -/
theorem upload_path_thumbnail_derived_check :
    upload_path_thumbnail dbStored demoSavedFile "ignored.jpg"
      = ("sites/" ++ toString 5 ++ "/" ++ strftimeYm demoDate ++ "/" ++ "photo")
        ++ "_thumbnail" ++ ("." ++ "png") :=
  (upload_path_thumbnail_derived dbStored demoDate demoSavedFile 5 "photo" "png"
    "ignored.jpg" rfl rfl (by decide) (by decide) (by decide) (by decide)).2

/-- Chains starting at `none` stay at `none`. -/
theorem chain_none (st : List LanguageTreeNode) : ∀ k, chain st none k = none := by
  intro k
  induction k with
  | zero => rfl
  | succ k ih => simpa [chain, chainStep] using ih

/-- Splitting a chain iteration into two runs. -/
theorem chain_add (st : List LanguageTreeNode) :
    ∀ (a b : Nat) (o : Option Nat),
      chain st o (a + b) = chain st (chain st o a) b := by
  intro a
  induction a with
  | zero =>
    intro b o
    rw [Nat.zero_add]
    rfl
  | succ a ih =>
    intro b o
    have h1 : a + 1 + b = (a + b) + 1 := by omega
    rw [h1]
    show chain st (chainStep st o) (a + b) = chain st (chain st (chainStep st o) a) b
    exact ih b (chainStep st o)

/-- Once a chain has died out it stays dead for any longer run. -/
theorem chain_none_mono (st : List LanguageTreeNode) {o : Option Nat} {a b : Nat}
    (h : chain st o a = none) (hab : a ≤ b) : chain st o b = none := by
  have h2 : b = a + (b - a) := by omega
  rw [h2, chain_add, h, chain_none]

/-- With pairwise distinct ids, looking up the parent of a stored node
returns the parent recorded on that node. -/
theorem parentOf_eq (st : List LanguageTreeNode) (hF : freshIds st)
    {n : LanguageTreeNode} (hn : n ∈ st) : parentOf st n.id = n.parent := by
  induction st with
  | nil => cases hn
  | cons m rest ih =>
    rw [freshIds, List.pairwise_cons] at hF
    rcases List.mem_cons.mp hn with h | h
    · subst h
      simp [parentOf]
    · have hne : m.id ≠ n.id := hF.1 n h
      rw [parentOf, if_neg hne]
      exact ih hF.2 h

/-- The `parentEarlier` invariant restricts to suffixes. -/
theorem parentEarlier_suffix {st s : List LanguageTreeNode}
    (hP : parentEarlier st) (hs : s <:+ st) : parentEarlier s := by
  induction st generalizing s with
  | nil =>
    rw [List.suffix_nil.mp hs]
    trivial
  | cons m rest ih =>
    rcases List.suffix_cons_iff.mp hs with h | h
    · rw [h]; exact hP
    · exact ih hP.2 h

/-- Under the invariants, the parent chain of a node dies out within one
more step than the number of strictly older nodes. -/
theorem chain_dies (st : List LanguageTreeNode)
    (hF : freshIds st) (hP : parentEarlier st) :
    ∀ (L : Nat) (s : List LanguageTreeNode) (n : LanguageTreeNode),
      s.length ≤ L → (n :: s) <:+ st →
      chain st (some n.id) (s.length + 1) = none := by
  intro L
  induction L with
  | zero =>
    intro s n hlen hs
    have hs0 : s = [] := List.eq_nil_of_length_eq_zero (Nat.le_zero.mp hlen)
    subst hs0
    have hmem : n ∈ st := hs.subset (List.mem_cons_self n [])
    have hpe := (parentEarlier_suffix hP hs).1
    show chain st (chainStep st (some n.id)) 0 = none
    have hstep : chainStep st (some n.id) = n.parent := parentOf_eq st hF hmem
    rw [hstep]
    cases hpar : n.parent with
    | none => rfl
    | some p =>
      obtain ⟨m, hm, _⟩ := hpe p hpar
      cases hm
  | succ L ih =>
    intro s n hlen hs
    have hmem : n ∈ st := hs.subset (List.mem_cons_self n s)
    have hstep : chainStep st (some n.id) = n.parent := parentOf_eq st hF hmem
    show chain st (chainStep st (some n.id)) s.length = none
    rw [hstep]
    cases hpar : n.parent with
    | none => exact chain_none st s.length
    | some p =>
      obtain ⟨m, hm, hmid, _⟩ := (parentEarlier_suffix hP hs).1 p hpar
      obtain ⟨l1, s2, rfl⟩ := List.append_of_mem hm
      have hsfx : (m :: s2) <:+ st := by
        have h1 : (m :: s2) <:+ l1 ++ m :: s2 := List.suffix_append l1 (m :: s2)
        have h2 : (l1 ++ m :: s2) <:+ st := by
          have h3 : (l1 ++ m :: s2) <:+ n :: (l1 ++ m :: s2) :=
            List.suffix_cons n (l1 ++ m :: s2)
          exact h3.trans hs
        exact h1.trans h2
      have hlen2 : s2.length ≤ L := by
        have := hlen
        simp [List.length_append] at this
        omega
      have hchain := ih s2 m hlen2 hsfx
      rw [hmid] at hchain
      apply chain_none_mono st hchain
      simp [List.length_append]

/-- Every state reachable by valid form submissions satisfies the three
structural invariants: fresh ids, parents recorded earlier and in the
same region, and one root per populated region. -/
theorem reachable_inv {st : List LanguageTreeNode} (h : FormReachable st) :
    freshIds st ∧ parentEarlier st ∧ singleRootedP st := by
  induction h with
  | nil =>
    refine ⟨List.Pairwise.nil, trivial, ?_⟩
    intro x hx
    cases hx
  | @step st n hr hv ih =>
    obtain ⟨hF, hP, hS⟩ := ih
    rw [submissionValid, Bool.and_eq_true] at hv
    have hfresh : ∀ m ∈ st, m.id ≠ n.id := by
      have h1 := hv.1
      rw [List.all_eq_true] at h1
      intro m hm
      simpa using h1 m hm
    have hPE : ∀ p, n.parent = some p →
        ∃ m ∈ st, m.id = p ∧ m.region = n.region := by
      intro p hp
      have hv2 := hv.2
      rw [hp, List.any_eq_true] at hv2
      obtain ⟨m, hm, hmp⟩ := hv2
      rw [Bool.and_eq_true, decide_eq_true_eq, decide_eq_true_eq] at hmp
      exact ⟨m, hm, hmp.1, hmp.2⟩
    refine ⟨?_, ⟨hPE, hP⟩, ?_⟩
    · rw [freshIds, List.pairwise_cons]
      exact ⟨fun m hm => (hfresh m hm).symm, hF⟩
    · intro x hx
      rw [rootsInRegion, List.countP_cons]
      cases hpar : n.parent with
      | none =>
        have hempty : ∀ m ∈ st, m.region ≠ n.region := by
          have hv2 := hv.2
          rw [hpar, List.all_eq_true] at hv2
          intro m hm
          simpa using hv2 m hm
        rcases List.mem_cons.mp hx with hxn | hxs
        · subst hxn
          have hz : List.countP
              (fun nd => nd.region == x.region && nd.parent.isNone) st = 0 := by
            rw [List.countP_eq_zero]
            intro m hm
            simp only [Bool.and_eq_true, beq_iff_eq]
            intro he
            exact hempty m hm he.1
          rw [hz]
          simp
        · have hne : n.region ≠ x.region := by
            intro he
            exact hempty x hxs he.symm
          have := hS x hxs
          rw [rootsInRegion] at this
          simpa [hne] using this
      | some q =>
        rcases List.mem_cons.mp hx with hxn | hxs
        · subst hxn
          obtain ⟨m, hm, _, hmreg⟩ := hPE q hpar
          have := hS m hm
          rw [rootsInRegion, hmreg] at this
          simpa using this
        · have := hS x hxs
          rw [rootsInRegion] at this
          simpa using this

/-- C7: every language-tree state built by a sequence of valid form
submissions is acyclic and has exactly one root per populated region;
the data layer imposes nothing, the guarantee comes from the validation
relation alone. -/
theorem language_tree_form_invariant (st : List LanguageTreeNode)
    (h : FormReachable st) :
    acyclicB st = true ∧ singleRootedB st = true := by
  obtain ⟨hF, hP, hS⟩ := reachable_inv h
  constructor
  · rw [acyclicB, List.all_eq_true]
    intro x hx
    obtain ⟨l1, s, rfl⟩ := List.append_of_mem hx
    have hsfx : (x :: s) <:+ l1 ++ x :: s := List.suffix_append l1 (x :: s)
    have hchain := chain_dies (l1 ++ x :: s) hF hP s.length s x (Nat.le_refl _) hsfx
    have hmono : chain (l1 ++ x :: s) (some x.id) (l1 ++ x :: s).length = none := by
      apply chain_none_mono _ hchain
      simp [List.length_append]
    rw [hmono]
    rfl
  · rw [singleRootedB, List.all_eq_true]
    intro x hx
    have := hS x hx
    simp [this]

/-- Witness for C7: a two-node tree built by two valid submissions. -/
theorem language_tree_form_invariant_check :
    acyclicB demoTree = true ∧ singleRootedB demoTree = true :=
  language_tree_form_invariant demoTree
    (FormReachable.step (FormReachable.step FormReachable.nil (by decide))
      (by decide))

end IntegreatCMS
